import Mathlib

/-!
Verification of the arbitrary-precision RSA core embedded in
`src/src/components/ThemeToggle.tsx` (the `rsa-utils` module of the
modular-arithmetic playground).

The JavaScript `bigint` type is modelled by `Int`.  JavaScript's `%` on
bigints is the truncating remainder (sign of the dividend), modelled by
`Int.tmod`; JavaScript's `/` on bigints truncates toward zero, modelled by
`Int.tdiv`.  JavaScript strings are modelled as `List Char` (one entry per
code point, matching the `Array.from` iteration the source uses); UTF-16
surrogate behaviour of `charCodeAt`/`fromCharCode` is modelled explicitly.

Loops and non-structural recursions of the source are modelled with an
explicit fuel argument; the wrapper functions supply fuel that provably
dominates the loop measure, and unfolding equations free of fuel are proved
below, so the fuel never changes the computed value.

`generateRandomPrime` (backed by `Math.random`) and the React presentation
layer are out of scope, matching the specification's scope statement.
-/

namespace RsaUtils

/-- Loop body of `isPrime` (source lines 51-53): trial division of `n` by
`i` and `i + 2` for `i = 5, 11, 17, ...` while `i * i ≤ n`. -/
def isPrimeLoopAux : Nat → Int → Int → Bool
  | 0, _, _ => true
  | fuel + 1, n, i =>
    if i * i ≤ n then
      if Int.tmod n i = 0 ∨ Int.tmod n (i + 2) = 0 then false
      else isPrimeLoopAux fuel n (i + 6)
    else true

/-- The trial-division loop of `isPrime`, entered at index `i`.  The fuel
`(n + 1 - i).toNat + 1` strictly dominates the number of remaining
iterations (the index grows by 6 while it stays at most `n`). -/
def isPrimeLoop (n i : Int) : Bool := isPrimeLoopAux ((n + 1 - i).toNat + 1) n i

/-- `isPrime` (source lines 46-56): deterministic trial division. -/
def isPrime (n : Int) : Bool :=
  if n ≤ 1 then false
  else if n ≤ 3 then true
  else if Int.tmod n 2 = 0 ∨ Int.tmod n 3 = 0 then false
  else isPrimeLoop n 5

/-- Loop body of `gcd` (source lines 69-74): iterative Euclidean algorithm
`[a, b] = [b, a % b]` until `b = 0`. -/
def gcdAux : Nat → Int → Int → Int
  | 0, a, _ => a
  | fuel + 1, a, b => if b = 0 then a else gcdAux fuel b (Int.tmod a b)

/-- `gcd` (source lines 69-74).  The fuel `b.natAbs + 1` dominates the
iteration count because `|a % b| < |b|` strictly decreases. -/
def gcd (a b : Int) : Int := gcdAux (b.natAbs + 1) a b

/-- Recursion of `extendedGcd` (source lines 77-85), with fuel. -/
def extendedGcdAux : Nat → Int → Int → Int × Int × Int
  | 0, _, m => (m, 0, 1)
  | fuel + 1, a, m =>
    if a = 0 then (m, 0, 1)
    else
      let r := extendedGcdAux fuel (Int.tmod m a) a
      (r.1, r.2.2 - Int.tdiv m a * r.2.1, r.2.1)

/-- `extendedGcd` (source lines 77-85): returns `(g, x, y)` from the
extended Euclidean recursion `extendedGcd(m % a, a)`. -/
def extendedGcd (a m : Int) : Int × Int × Int :=
  extendedGcdAux (a.natAbs + 1) a m

/-- `modularInverse` (source lines 88-94): `null` (here `none`) when the
first component of `extendedGcd` is not 1, otherwise the Bézout
coefficient normalised by `((x % phi) + phi) % phi` (JavaScript `%`). -/
def modularInverse (e phi : Int) : Option Int :=
  let r := extendedGcd e phi
  if r.1 ≠ 1 then none
  else some (Int.tmod (Int.tmod r.2.1 phi + phi) phi)

/-- Loop body of `modularExponentiation` (source lines 103-109), with fuel.
JavaScript's `exponent >> 1n` is an arithmetic shift, i.e. floor division
by 2; for the positive divisor 2 Lean's Euclidean `/` computes exactly
that. -/
def modExpLoopAux : Nat → Int → Int → Int → Int → Int
  | 0, result, _, _, _ => result
  | fuel + 1, result, base, exponent, modulus =>
    if 0 < exponent then
      modExpLoopAux fuel
        (if Int.tmod exponent 2 = 1 then Int.tmod (result * base) modulus else result)
        (Int.tmod (base * base) modulus)
        (exponent / 2) modulus
    else result

/-- The square-and-multiply loop with adequate fuel (`exponent` at least
halves every iteration, so `exponent.toNat + 1` iterations suffice). -/
def modExpLoop (result base exponent modulus : Int) : Int :=
  modExpLoopAux (exponent.toNat + 1) result base exponent modulus

/-- `modularExponentiation` (source lines 97-112): binary exponentiation,
special-casing `modulus = 1`, after reducing `base` modulo `modulus`. -/
def modularExponentiation (base exponent modulus : Int) : Int :=
  if modulus = 1 then 0
  else modExpLoop 1 (Int.tmod base modulus) exponent modulus

/-- `eulerTotient` (source lines 115-117). -/
def eulerTotient (p q : Int) : Int := (p - 1) * (q - 1)

/-- `char.charCodeAt(0)` for a code point obtained from `Array.from`
iteration: the code point itself when it is a single UTF-16 unit,
otherwise the high surrogate of its surrogate pair. -/
def charCodeAt0 (c : Char) : Nat :=
  if c.toNat < 65536 then c.toNat else 55296 + (c.toNat - 65536) / 1024

/-- `stringToBigIntArray` (source lines 120-122): one integer per
character of the message. -/
def stringToBigIntArray (message : List Char) : List Int :=
  message.map fun c => (charCodeAt0 c : Int)

/-- `String.fromCharCode(Number(num))`: the argument is reduced to an
unsigned 16-bit code unit.  A resulting unit in the surrogate range is a
lone surrogate in JavaScript, which `Char` cannot represent; `Char.ofNat`
maps exactly those units (and only those) to the NUL character, so such
results still differ from every original character. -/
def fromCharCode (num : Int) : Char :=
  Char.ofNat (num % 65536).toNat

/-- `bigIntArrayToString` (source lines 125-127). -/
def bigIntArrayToString (numbers : List Int) : List Char :=
  numbers.map fromCharCode

/-- `encryptCharacter` (source lines 130-132). -/
def encryptCharacter (m e n : Int) : Int := modularExponentiation m e n

/-- `decryptCharacter` (source lines 135-137). -/
def decryptCharacter (c d n : Int) : Int := modularExponentiation c d n

/-- `RSAKeyPair` (source lines 140-148). -/
structure RSAKeyPair where
  p : Int
  q : Int
  n : Int
  phi : Int
  e : Int
  d : Int
  steps : List String
deriving DecidableEq

/-- First narrated error of `generateRSAKeys` (source line 154). -/
def errNotPrimeStep : String := "❌ Error: Both p and q must be prime numbers"

/-- Second narrated error of `generateRSAKeys` (source line 169). -/
def errNonCoprimeStep (e phi : Int) : String :=
  s!"❌ Error: gcd({e}, {phi}) ≠ 1. Choose different primes."

/-- Third narrated error of `generateRSAKeys` (source line 176). -/
def errNoInverseStep (e phi : Int) : String :=
  s!"❌ Error: Cannot compute modular inverse of {e} mod {phi}"

/-- `generateRSAKeys` (source lines 150-183).  On every failure the source
returns bare `null`, discarding the local `steps` array; the successful
branch returns the keypair carrying the accumulated narration.  JavaScript
`if (!d)` is falsy both for `null` and for `0n`, hence the extra `d = 0`
failure test after a successful `modularInverse`. -/
def generateRSAKeys (p q : Int) : Option RSAKeyPair :=
  if ¬ isPrime p ∨ ¬ isPrime q then none
  else
    let steps : List String := [s!"✓ Prime validation: p = {p}, q = {q}"]
    let n := p * q
    let steps := steps ++ [s!"📐 Calculate n = p × q = {p} × {q} = {n}"]
    let phi := eulerTotient p q
    let pm1 := p - 1
    let qm1 := q - 1
    let steps := steps ++
      [s!"🔢 Calculate φ(n) = (p-1) × (q-1) = {pm1} × {qm1} = {phi}"]
    let e : Int := 65537
    if gcd e phi ≠ 1 then none
    else
      let steps := steps ++ [s!"🔑 Choose e = {e}, verify gcd({e}, {phi}) = 1 ✓"]
      match modularInverse e phi with
      | none => none
      | some d =>
        if d = 0 then none
        else
          let steps := steps ++
            [s!"🔐 Calculate d ≡ e⁻¹ (mod φ(n)) = {d}",
             s!"✅ Verification: {e} × {d} ≡ 1 (mod {phi})"]
          some ⟨p, q, n, phi, e, d, steps⟩

/-- The contents of the local `steps` array of `generateRSAKeys` at the
point of return (source lines 150-183), including the narrated error step
of each failure branch.  The source discards this value on failure by
returning bare `null`; this instrumented definition records it. -/
def generateRSAKeysSteps (p q : Int) : List String :=
  if ¬ isPrime p ∨ ¬ isPrime q then [errNotPrimeStep]
  else
    let steps : List String := [s!"✓ Prime validation: p = {p}, q = {q}"]
    let n := p * q
    let steps := steps ++ [s!"📐 Calculate n = p × q = {p} × {q} = {n}"]
    let phi := eulerTotient p q
    let pm1 := p - 1
    let qm1 := q - 1
    let steps := steps ++
      [s!"🔢 Calculate φ(n) = (p-1) × (q-1) = {pm1} × {qm1} = {phi}"]
    let e : Int := 65537
    if gcd e phi ≠ 1 then steps ++ [errNonCoprimeStep e phi]
    else
      let steps := steps ++ [s!"🔑 Choose e = {e}, verify gcd({e}, {phi}) = 1 ✓"]
      match modularInverse e phi with
      | none => steps ++ [errNoInverseStep e phi]
      | some d =>
        if d = 0 then steps ++ [errNoInverseStep e phi]
        else steps ++
          [s!"🔐 Calculate d ≡ e⁻¹ (mod φ(n)) = {d}",
           s!"✅ Verification: {e} × {d} ≡ 1 (mod {phi})"]

/-- `validateMessage` (source lines 186-189). -/
def validateMessage (message : List Char) (n : Int) : Bool :=
  (stringToBigIntArray message).all fun code => decide (code < n)

/-- Result of `rsaEncrypt` (source lines 192-195). -/
structure EncryptResult where
  ciphertext : List Int
  steps : List String
deriving DecidableEq

/-- Result of `rsaDecrypt` (source lines 212-215). -/
structure DecryptResult where
  decrypted : List Char
  steps : List String
deriving DecidableEq

/-- `rsaEncrypt` (source lines 192-209): per-character modular
exponentiation with the public exponent, plus narration. -/
def rsaEncrypt (message : List Char) (e n : Int) : EncryptResult :=
  let plainNumbers := stringToBigIntArray message
  let msgStr := String.mk message
  let mapping := String.intercalate ", "
    (message.map fun c =>
      let code := charCodeAt0 c
      s!"\x27{c}\x27 → {code}")
  let headerSteps := [s!"📝 Convert message \"{msgStr}\" to numbers:", "   " ++ mapping]
  let ciphertext := plainNumbers.map fun m => encryptCharacter m e n
  let charSteps := message.map fun c =>
    let m : Int := (charCodeAt0 c : Int)
    let ct := encryptCharacter m e n
    s!"🔒 Encrypt \x27{c}\x27: {m}^{e} mod {n} = {ct}"
  ⟨ciphertext, headerSteps ++ charSteps⟩

/-- `rsaDecrypt` (source lines 212-229): per-element modular
exponentiation with the private exponent, then codec reconstruction. -/
def rsaDecrypt (ciphertext : List Int) (d n : Int) : DecryptResult :=
  let decryptedNumbers := ciphertext.map fun c => decryptCharacter c d n
  let charSteps := ciphertext.map fun c =>
    let m := decryptCharacter c d n
    let ch := fromCharCode m
    s!"🔓 Decrypt {c}: {c}^{d} mod {n} = {m} → \x27{ch}\x27"
  let decrypted := bigIntArrayToString decryptedNumbers
  let decryptedStr := String.mk decrypted
  ⟨decrypted, charSteps ++ [s!"📋 Reconstructed message: \"{decryptedStr}\""]⟩

/-- Modelled from the spec: the "naive repeated-multiplication reference"
named by the specification's testable property for
`modularExponentiation` — the power computed by repeated multiplication. -/
def naivePow (b : Int) : Nat → Int
  | 0 => 1
  | k + 1 => naivePow b k * b

/-- Modelled from the spec: `(base^exponent) mod modulus` where the power
is the naive repeated-multiplication reference and `mod` is the canonical
residue in `[0, modulus)` for a positive modulus. -/
def naiveModPow (b : Int) (k : Nat) (m : Int) : Int := naivePow b k % m

/-- Keypair produced by `generateRSAKeys 11 13` (used as a concrete
instance below). -/
def kp1113 : RSAKeyPair :=
  ⟨11, 13, 143, 120, 65537, 113, generateRSAKeysSteps 11 13⟩

/-- Keypair produced by `generateRSAKeys 5 11`. -/
def kp511 : RSAKeyPair :=
  ⟨5, 11, 55, 40, 65537, 33, generateRSAKeysSteps 5 11⟩

/-- Keypair produced by `generateRSAKeys 13 17`. -/
def kp1317 : RSAKeyPair :=
  ⟨13, 17, 221, 192, 65537, 65, generateRSAKeysSteps 13 17⟩

/-- Keypair produced by `generateRSAKeys 457 449`; its modulus 205193
exceeds the high surrogate 55357 = 0xD83D and the code point 128169 of
the astral character U+1F4A9. -/
def kp457449 : RSAKeyPair :=
  ⟨457, 449, 205193, 204288, 65537, 70145, generateRSAKeysSteps 457 449⟩

/-! ### Basic facts about the JavaScript remainder (`Int.tmod`) -/

/-- The absolute value of a truncating remainder is the remainder of the
absolute values. -/
theorem natAbs_tmod (m a : Int) : (Int.tmod m a).natAbs = m.natAbs % a.natAbs := by
  cases m <;> cases a <;> simp only [Int.tmod, Int.natAbs_neg] <;> rfl

theorem natAbs_tmod_lt (m a : Int) (h : a ≠ 0) : (Int.tmod m a).natAbs < a.natAbs := by
  rw [natAbs_tmod]; exact Nat.mod_lt _ (Int.natAbs_pos.mpr h)

theorem self_le_mul_self (i : Int) : i ≤ i * i := by
  rcases le_or_lt i 0 with h | h
  · exact le_trans h (mul_self_nonneg i)
  · calc i = i * 1 := (mul_one i).symm
      _ ≤ i * i := by
        apply mul_le_mul_of_nonneg_left (by omega) (le_of_lt h)

/-- `((x % phi) + phi) % phi` with the JavaScript `%` is the canonical
residue of `x` for a positive modulus. -/
theorem tmod_normalize (x phi : Int) (h : 0 < phi) :
    Int.tmod (Int.tmod x phi + phi) phi = x % phi := by
  have h1 : (Int.tmod x phi).natAbs < phi.natAbs := natAbs_tmod_lt x phi (by omega)
  have h2 : 0 ≤ Int.tmod x phi + phi := by omega
  rw [Int.tmod_eq_emod h2 (le_of_lt h)]
  rw [show Int.tmod x phi + phi = Int.tmod x phi + phi * 1 by ring,
    Int.add_mul_emod_self_left, Int.tmod_def,
    show x - phi * x.tdiv phi = x + phi * (-x.tdiv phi) by ring,
    Int.add_mul_emod_self_left]

/-- Reducing the base of a power modulo `n` does not change the residue. -/
theorem pow_emod_int (a n : Int) (k : Nat) : ((a % n) ^ k) % n = (a ^ k) % n := by
  induction k with
  | zero => rfl
  | succ h ih =>
    rw [pow_succ, pow_succ, Int.mul_emod, ih, ← Int.mul_emod, Int.mul_emod,
      Int.emod_emod, ← Int.mul_emod]

/-- A multiple of `n` strictly between `-n` and `n` is zero. -/
theorem eq_zero_of_dvd_of_lt_abs {n x : Int} (hn : 0 < n) (hd : n ∣ x)
    (h1 : -n < x) (h2 : x < n) : x = 0 := by
  obtain ⟨k, rfl⟩ := hd
  rcases lt_trichotomy k 0 with hk | hk | hk
  · exfalso
    have hle : n * k ≤ n * (-1) := mul_le_mul_of_nonneg_left (by omega) (le_of_lt hn)
    have : n * (-1) = -n := by ring
    omega
  · simp [hk]
  · exfalso
    have hle : n * 1 ≤ n * k := mul_le_mul_of_nonneg_left (by omega) (le_of_lt hn)
    have : n * 1 = n := by ring
    omega

/-! ### Fuel adequacy and fuel-free unfolding equations -/

theorem gcdAux_adequate : ∀ (fuel fuel' : Nat) (a b : Int),
    b.natAbs < fuel → b.natAbs < fuel' → gcdAux fuel a b = gcdAux fuel' a b := by
  intro fuel
  induction fuel with
  | zero => omega
  | succ f ih =>
    intro fuel' a b h h'
    match fuel', h' with
    | f' + 1, _ =>
      simp only [gcdAux]
      by_cases hb : b = 0
      · simp [hb]
      · simp only [hb, if_false]
        have hlt := natAbs_tmod_lt a b hb
        apply ih <;> omega

/-- The source's `gcd` loop, one iteration at a time. -/
theorem gcd_eq (a b : Int) : gcd a b = if b = 0 then a else gcd b (Int.tmod a b) := by
  by_cases hb : b = 0
  · simp [gcd, gcdAux, hb]
  · rw [if_neg hb]
    have h1 : gcd a b = gcdAux b.natAbs b (Int.tmod a b) := by
      simp [gcd, gcdAux, hb]
    rw [h1]
    have hlt := natAbs_tmod_lt a b hb
    exact gcdAux_adequate _ _ _ _ (by omega) (by omega)

/-- On natural inputs the source's `gcd` computes the mathematical gcd. -/
theorem gcd_natCast (A B : Nat) : gcd (A : Int) (B : Int) = (Nat.gcd A B : Int) := by
  induction B using Nat.strong_induction_on generalizing A with
  | _ B ih =>
    rw [gcd_eq]
    by_cases h0 : B = 0
    · subst h0; simp
    · rw [if_neg (by exact_mod_cast h0)]
      have htm : Int.tmod (A : Int) (B : Int) = ((A % B : Nat) : Int) :=
        (Int.ofNat_tmod A B).symm
      rw [htm, ih (A % B) (Nat.mod_lt _ (Nat.pos_of_ne_zero h0)) B]
      congr 1
      rw [Nat.gcd_comm B (A % B), ← Nat.gcd_rec B A, Nat.gcd_comm B A]

theorem gcd_nonneg_eq (a b : Int) (ha : 0 ≤ a) (hb : 0 ≤ b) :
    gcd a b = (Int.gcd a b : Int) := by
  obtain ⟨A, rfl⟩ := Int.eq_ofNat_of_zero_le ha
  obtain ⟨B, rfl⟩ := Int.eq_ofNat_of_zero_le hb
  rw [gcd_natCast]
  simp [Int.gcd]

theorem extendedGcdAux_adequate : ∀ (fuel fuel' : Nat) (a m : Int),
    a.natAbs < fuel → a.natAbs < fuel' →
    extendedGcdAux fuel a m = extendedGcdAux fuel' a m := by
  intro fuel
  induction fuel with
  | zero => omega
  | succ f ih =>
    intro fuel' a m h h'
    match fuel', h' with
    | f' + 1, _ =>
      simp only [extendedGcdAux]
      by_cases ha : a = 0
      · simp [ha]
      · simp only [ha, if_false]
        have hlt := natAbs_tmod_lt m a ha
        rw [ih f' (Int.tmod m a) a (by omega) (by omega)]

/-- The source's `extendedGcd` recursion, fuel-free. -/
theorem extendedGcd_eq (a m : Int) :
    extendedGcd a m =
      if a = 0 then (m, 0, 1)
      else
        ((extendedGcd (Int.tmod m a) a).1,
         (extendedGcd (Int.tmod m a) a).2.2
           - Int.tdiv m a * (extendedGcd (Int.tmod m a) a).2.1,
         (extendedGcd (Int.tmod m a) a).2.1) := by
  by_cases ha : a = 0
  · simp [extendedGcd, extendedGcdAux, ha]
  · rw [if_neg ha]
    have hlt := natAbs_tmod_lt m a ha
    have h1 : extendedGcd a m =
        (let r := extendedGcdAux a.natAbs (Int.tmod m a) a
         (r.1, r.2.2 - Int.tdiv m a * r.2.1, r.2.1)) := by
      simp [extendedGcd, extendedGcdAux, ha]
    rw [h1]
    have h2 : extendedGcdAux a.natAbs (Int.tmod m a) a = extendedGcd (Int.tmod m a) a :=
      extendedGcdAux_adequate _ _ _ _ (by omega) (by omega)
    rw [h2]

/-- On natural inputs, `extendedGcd` returns the mathematical gcd in its
first component together with Bézout coefficients for it. -/
theorem extendedGcd_natCast (A : Nat) : ∀ M : Nat,
    (extendedGcd (A : Int) (M : Int)).1 = (Nat.gcd A M : Int) ∧
    (A : Int) * (extendedGcd (A : Int) (M : Int)).2.1
      + (M : Int) * (extendedGcd (A : Int) (M : Int)).2.2
      = (extendedGcd (A : Int) (M : Int)).1 := by
  induction A using Nat.strong_induction_on with
  | _ A ih =>
    intro M
    rw [extendedGcd_eq]
    by_cases h0 : (A : Int) = 0
    · have hA : A = 0 := by exact_mod_cast h0
      subst hA
      simp
    · have hA : A ≠ 0 := by exact_mod_cast h0
      rw [if_neg h0]
      have htm : Int.tmod (M : Int) (A : Int) = ((M % A : Nat) : Int) :=
        (Int.ofNat_tmod M A).symm
      have htd : Int.tdiv (M : Int) (A : Int) = ((M / A : Nat) : Int) :=
        (Int.ofNat_tdiv M A).symm
      have hrec := ih (M % A) (Nat.mod_lt _ (Nat.pos_of_ne_zero hA)) A
      rw [htm, htd]
      have hgcd : (M % A).gcd A = A.gcd M := (Nat.gcd_rec A M).symm
      constructor
      · simp only
        rw [hrec.1, hgcd]
      · simp only
        have hma : ((M % A : Nat) : Int) = (M : Int) - (A : Int) * ((M / A : Nat) : Int) := by
          have hdm : ((A * (M / A) + M % A : Nat) : Int) = (M : Int) := by
            rw [Nat.div_add_mod]
          rw [Nat.cast_add, Nat.cast_mul] at hdm
          linarith
        have hbez := hrec.2
        linear_combination hbez - (extendedGcd ((M % A : Nat) : Int) (A : Int)).2.1 * hma

theorem modExpLoopAux_adequate : ∀ (fuel fuel' : Nat) (r b e m : Int),
    e.toNat < fuel → e.toNat < fuel' →
    modExpLoopAux fuel r b e m = modExpLoopAux fuel' r b e m := by
  intro fuel
  induction fuel with
  | zero => omega
  | succ f ih =>
    intro fuel' r b e m h h'
    match fuel', h' with
    | f' + 1, _ =>
      simp only [modExpLoopAux]
      by_cases he : 0 < e
      · simp only [he, if_true]
        apply ih <;> omega
      · simp [he]

/-- The square-and-multiply loop, fuel-free. -/
theorem modExpLoop_eq (r b e m : Int) :
    modExpLoop r b e m =
      if 0 < e then
        modExpLoop (if Int.tmod e 2 = 1 then Int.tmod (r * b) m else r)
          (Int.tmod (b * b) m) (e / 2) m
      else r := by
  by_cases he : 0 < e
  · rw [if_pos he]
    have h1 : modExpLoop r b e m =
        modExpLoopAux e.toNat (if Int.tmod e 2 = 1 then Int.tmod (r * b) m else r)
          (Int.tmod (b * b) m) (e / 2) m := by
      simp [modExpLoop, modExpLoopAux, he]
    rw [h1]
    exact modExpLoopAux_adequate _ _ _ _ _ _ (by omega) (by omega)
  · simp [modExpLoop, modExpLoopAux, he]

theorem isPrimeLoopAux_adequate : ∀ (fuel fuel' : Nat) (n i : Int),
    (n + 1 - i).toNat < fuel → (n + 1 - i).toNat < fuel' →
    isPrimeLoopAux fuel n i = isPrimeLoopAux fuel' n i := by
  intro fuel
  induction fuel with
  | zero => omega
  | succ f ih =>
    intro fuel' n i h h'
    match fuel', h' with
    | f' + 1, _ =>
      simp only [isPrimeLoopAux]
      by_cases hg : i * i ≤ n
      · simp only [hg, if_true]
        have hin : i ≤ n := le_trans (self_le_mul_self i) hg
        by_cases hc : Int.tmod n i = 0 ∨ Int.tmod n (i + 2) = 0
        · simp [hc]
        · simp only [hc, if_false]
          apply ih <;> omega
      · simp [hg]

/-- The trial-division loop, fuel-free. -/
theorem isPrimeLoop_eq (n i : Int) :
    isPrimeLoop n i =
      if i * i ≤ n then
        if Int.tmod n i = 0 ∨ Int.tmod n (i + 2) = 0 then false
        else isPrimeLoop n (i + 6)
      else true := by
  by_cases hg : i * i ≤ n
  · rw [if_pos hg]
    have hin : i ≤ n := le_trans (self_le_mul_self i) hg
    by_cases hc : Int.tmod n i = 0 ∨ Int.tmod n (i + 2) = 0
    · simp [isPrimeLoop, isPrimeLoopAux, hg, hc]
    · rw [if_neg hc]
      have h1 : isPrimeLoop n i = isPrimeLoopAux ((n + 1 - i).toNat) n (i + 6) := by
        simp [isPrimeLoop, isPrimeLoopAux, hg, hc]
      rw [h1]
      exact isPrimeLoopAux_adequate _ _ _ _ (by omega) (by omega)
  · simp [isPrimeLoop, isPrimeLoopAux, hg]

/-! ### Correctness of `modularInverse` -/

/-- On nonnegative inputs, `modularInverse` fails exactly when the
mathematical gcd is not 1. -/
theorem modularInverse_none_iff (e phi : Int) (he : 0 ≤ e) (hphi : 0 ≤ phi) :
    modularInverse e phi = none ↔ Int.gcd e phi ≠ 1 := by
  obtain ⟨E, rfl⟩ := Int.eq_ofNat_of_zero_le he
  obtain ⟨P, rfl⟩ := Int.eq_ofNat_of_zero_le hphi
  have h1 := (extendedGcd_natCast E P).1
  have hgcd : Int.gcd (E : Int) (P : Int) = Nat.gcd E P := by
    simp [Int.gcd]
  unfold modularInverse
  by_cases hc : (extendedGcd (E : Int) (P : Int)).1 = 1
  · rw [if_neg (by simp [hc])]
    rw [hgcd]
    constructor
    · intro hsome; exact absurd hsome (by simp)
    · intro hne
      exfalso
      apply hne
      have h2 : (Nat.gcd E P : Int) = 1 := h1 ▸ hc
      exact_mod_cast h2
  · rw [if_pos hc]
    rw [hgcd]
    constructor
    · intro _ heq
      apply hc
      rw [h1]
      exact_mod_cast heq
    · intro _; rfl

/-- When `modularInverse` succeeds on nonnegative inputs with a positive
modulus, the inputs are coprime and the result is the normalised residue
of the Bézout coefficient: it lies in `[0, phi)` and satisfies
`(e * d) % phi = 1 % phi`. -/
theorem modularInverse_some_spec (e phi d : Int) (he : 0 ≤ e) (hphi : 0 < phi)
    (h : modularInverse e phi = some d) :
    Int.gcd e phi = 1 ∧ 0 ≤ d ∧ d < phi ∧ e * d % phi = 1 % phi := by
  obtain ⟨E, rfl⟩ := Int.eq_ofNat_of_zero_le he
  obtain ⟨P, rfl⟩ := Int.eq_ofNat_of_zero_le (le_of_lt hphi)
  have h1 := (extendedGcd_natCast E P).1
  have hbez := (extendedGcd_natCast E P).2
  unfold modularInverse at h
  by_cases hc : (extendedGcd (E : Int) (P : Int)).1 = 1
  · rw [if_neg (by simp [hc])] at h
    simp only [Option.some.injEq] at h
    have hgcd : Int.gcd (E : Int) (P : Int) = 1 := by
      have h3 : (Nat.gcd E P : Int) = 1 := h1 ▸ hc
      have h2 : Nat.gcd E P = 1 := by exact_mod_cast h3
      simp [Int.gcd, h2]
    subst h
    rw [tmod_normalize _ _ hphi]
    refine ⟨hgcd, Int.emod_nonneg _ (by omega), Int.emod_lt_of_pos _ hphi, ?_⟩
    set x := (extendedGcd (E : Int) (P : Int)).2.1 with hx
    set y := (extendedGcd (E : Int) (P : Int)).2.2 with hy
    rw [hc] at hbez
    have hmul : (E : Int) * (x % (P : Int)) % (P : Int) = (E : Int) * x % (P : Int) := by
      rw [Int.mul_emod, Int.emod_emod, ← Int.mul_emod]
    rw [hmul, show (E : Int) * x = 1 + (P : Int) * (-y) by linarith,
      Int.add_mul_emod_self_left]
  · rw [if_pos hc] at h
    exact absurd h (by simp)

/-- The normalised inverse is the unique residue satisfying
`(e * d) % phi = 1 % phi` in `[0, phi)` when `gcd e phi = 1`. -/
theorem modularInverse_unique (e phi d d' : Int) (hg : Int.gcd e phi = 1)
    (hphi : 0 < phi) (hd : 0 ≤ d) (hd2 : d < phi) (hmod : e * d % phi = 1 % phi)
    (hd' : 0 ≤ d') (hd'2 : d' < phi) (hmod' : e * d' % phi = 1 % phi) : d' = d := by
  have hsub : (e * d' - e * d) % phi = 0 :=
    Int.emod_eq_emod_iff_emod_sub_eq_zero.mp (hmod'.trans hmod.symm)
  have hdvd : phi ∣ e * (d' - d) := by
    have := Int.dvd_of_emod_eq_zero hsub
    rw [show e * (d' - d) = e * d' - e * d by ring]
    exact this
  have hdvd2 : phi ∣ d' - d := by
    apply Int.dvd_of_dvd_mul_right_of_gcd_one hdvd
    rw [Int.gcd_comm]
    exact hg
  have : d' - d = 0 := eq_zero_of_dvd_of_lt_abs hphi hdvd2 (by omega) (by omega)
  omega

/-! ### Correctness of `modularExponentiation` -/

theorem modExpLoop_natCast (E : Nat) : ∀ (r b m : Int), 0 < m → 0 ≤ r → r < m →
    0 ≤ b → b < m → modExpLoop r b (E : Int) m = r * b ^ E % m := by
  induction E using Nat.strong_induction_on with
  | _ E ih =>
    intro r b m hm hr hrm hb hbm
    rw [modExpLoop_eq]
    by_cases hE : 0 < (E : Int)
    · rw [if_pos hE]
      have hE0 : 0 < E := by exact_mod_cast hE
      have hdiv : (E : Int) / 2 = ((E / 2 : Nat) : Int) := (Int.ofNat_ediv E 2).symm
      have hparity : Int.tmod (E : Int) 2 = ((E % 2 : Nat) : Int) :=
        (Int.ofNat_tmod E 2).symm
      have hrec := ih (E / 2) (Nat.div_lt_self hE0 (by omega))
      have hb2 : 0 ≤ Int.tmod (b * b) m := by
        rw [Int.tmod_eq_emod (by positivity) (by omega)]
        exact Int.emod_nonneg _ (by omega)
      have hb2m : Int.tmod (b * b) m < m := by
        rw [Int.tmod_eq_emod (by positivity) (by omega)]
        exact Int.emod_lt_of_pos _ hm
      have hbbemod : Int.tmod (b * b) m = b * b % m :=
        Int.tmod_eq_emod (by positivity) (by omega)
      have hsplit : E = 2 * (E / 2) + E % 2 := (Nat.div_add_mod' E 2).symm ▸ by omega
      by_cases hpar : E % 2 = 1
      · have hcond : Int.tmod (E : Int) 2 = 1 := by rw [hparity, hpar]; rfl
        rw [if_pos hcond, hdiv]
        have hrb : 0 ≤ Int.tmod (r * b) m := by
          rw [Int.tmod_eq_emod (by positivity) (by omega)]
          exact Int.emod_nonneg _ (by omega)
        have hrbm : Int.tmod (r * b) m < m := by
          rw [Int.tmod_eq_emod (by positivity) (by omega)]
          exact Int.emod_lt_of_pos _ hm
        rw [hrec _ _ _ hm hrb hrbm hb2 hb2m]
        rw [Int.tmod_eq_emod (by positivity) (by omega), hbbemod]
        rw [Int.mul_emod (r * b % m), Int.emod_emod, pow_emod_int, ← Int.mul_emod]
        congr 1
        have hE2 : E = 2 * (E / 2) + 1 := by omega
        rw [show r * b * (b * b) ^ (E / 2) = r * ((b * b) ^ (E / 2) * b) by ring]
        rw [show b * b = b ^ 2 by ring, ← pow_mul, ← pow_succ]
        rw [show 2 * (E / 2) + 1 = E from hE2.symm]
      · have hpar0 : E % 2 = 0 := by omega
        have hcond : ¬ Int.tmod (E : Int) 2 = 1 := by
          rw [hparity, hpar0]
          decide
        rw [if_neg hcond, hdiv]
        rw [hrec _ _ _ hm hr hrm hb2 hb2m]
        rw [hbbemod]
        rw [Int.mul_emod r, pow_emod_int, ← Int.mul_emod]
        congr 1
        have hE2 : E = 2 * (E / 2) := by omega
        rw [show b * b = b ^ 2 by ring, ← pow_mul]
        rw [show 2 * (E / 2) = E from hE2.symm]
    · rw [if_neg hE]
      have hE0 : E = 0 := by omega
      subst hE0
      rw [pow_zero, mul_one, Int.emod_eq_of_lt hr hrm]

/-- On a nonnegative base and exponent and a positive modulus,
`modularExponentiation` computes the canonical residue of the power. -/
theorem modularExponentiation_spec (b e m : Int) (hb : 0 ≤ b) (he : 0 ≤ e)
    (hm : 0 < m) : modularExponentiation b e m = b ^ e.toNat % m := by
  unfold modularExponentiation
  by_cases h1 : m = 1
  · subst h1
    simp [Int.emod_one]
  · rw [if_neg h1]
    have hm1 : 1 < m := by omega
    obtain ⟨E, rfl⟩ := Int.eq_ofNat_of_zero_le he
    rw [Int.toNat_ofNat, Int.tmod_eq_emod hb (by omega)]
    rw [modExpLoop_natCast E 1 (b % m) m hm (by omega) hm1
      (Int.emod_nonneg _ (by omega)) (Int.emod_lt_of_pos _ hm)]
    rw [one_mul, pow_emod_int]

/-- Range of `modularExponentiation` on nonnegative inputs. -/
theorem modularExponentiation_range (b e m : Int) (hb : 0 ≤ b) (he : 0 ≤ e)
    (hm : 0 < m) : 0 ≤ modularExponentiation b e m ∧ modularExponentiation b e m < m := by
  rw [modularExponentiation_spec b e m hb he hm]
  exact ⟨Int.emod_nonneg _ (by omega), Int.emod_lt_of_pos _ hm⟩

/-- The naive repeated-multiplication power equals the ring power. -/
theorem naivePow_eq_pow (b : Int) (k : Nat) : naivePow b k = b ^ k := by
  induction k with
  | zero => rfl
  | succ h ih => rw [naivePow, ih, pow_succ]

/-! ### Correctness of `isPrime` -/

/-- If some checked index (`i + 6k` or `i + 6k + 2` with the guard
`(i + 6k)² ≤ n`) divides `n`, the trial-division loop reports composite. -/
theorem isPrimeLoop_false_of_dvd (n : Int) : ∀ (k : Nat) (i : Int), 0 < i →
    (i + 6 * (k : Int)) * (i + 6 * (k : Int)) ≤ n →
    ((i + 6 * (k : Int)) ∣ n ∨ (i + 6 * (k : Int) + 2) ∣ n) →
    isPrimeLoop n i = false := by
  intro k
  induction k with
  | zero =>
    intro i hi hsq hdvd
    rw [isPrimeLoop_eq]
    simp only [Nat.cast_zero, mul_zero, add_zero] at hsq hdvd
    rw [if_pos hsq]
    have hcond : Int.tmod n i = 0 ∨ Int.tmod n (i + 2) = 0 := by
      rcases hdvd with h | h
      · exact Or.inl (Int.tmod_eq_zero_of_dvd h)
      · exact Or.inr (Int.tmod_eq_zero_of_dvd h)
    rw [if_pos hcond]
  | succ k ih =>
    intro i hi hsq hdvd
    push_cast at hsq hdvd
    rw [isPrimeLoop_eq]
    have hknn : (0 : Int) ≤ (k : Int) := Int.natCast_nonneg k
    have hle : i ≤ i + 6 * ((k : Int) + 1) := by omega
    have hg : i * i ≤ n :=
      le_trans (mul_le_mul hle hle (le_of_lt hi) (by omega)) hsq
    rw [if_pos hg]
    by_cases hc : Int.tmod n i = 0 ∨ Int.tmod n (i + 2) = 0
    · rw [if_pos hc]
    · rw [if_neg hc]
      have harr : i + 6 + 6 * (k : Int) = i + 6 * ((k : Int) + 1) := by ring
      apply ih (i + 6) (by omega)
      · rw [harr]
        exact hsq
      · rw [harr]
        exact hdvd

/-- A proper nontrivial divisor contradicts primality of `n.toNat`. -/
theorem not_dvd_of_prime (n d : Int) (hn : 2 ≤ n) (hp : Nat.Prime n.toNat)
    (hd1 : 1 < d) (hd2 : d < n) : ¬ d ∣ n := by
  intro hdvd
  obtain ⟨N, rfl⟩ := Int.eq_ofNat_of_zero_le (by omega : (0:Int) ≤ n)
  obtain ⟨D, rfl⟩ := Int.eq_ofNat_of_zero_le (by omega : (0:Int) ≤ d)
  rw [Int.toNat_ofNat] at hp
  have hdvd' : D ∣ N := by exact_mod_cast hdvd
  have hD1 : 1 < D := by exact_mod_cast hd1
  have hDN : D < N := by exact_mod_cast hd2
  rcases hp.eq_one_or_self_of_dvd D hdvd' with h | h <;> omega

/-- If `n.toNat` is prime, the trial-division loop never reports
composite. -/
theorem isPrimeLoop_true_of_prime (n : Int) (hn : 2 ≤ n) (hp : Nat.Prime n.toNat) :
    ∀ (meas : Nat) (i : Int), (n + 1 - i).toNat = meas → 5 ≤ i →
    isPrimeLoop n i = true := by
  intro meas
  induction meas using Nat.strong_induction_on with
  | _ meas ih =>
    intro i hmeas hi
    rw [isPrimeLoop_eq]
    by_cases hg : i * i ≤ n
    · rw [if_pos hg]
      have h5i : 5 * i ≤ i * i := by nlinarith
      have h25 : (25 : Int) ≤ n := le_trans (by nlinarith) hg
      have hi2n : i + 2 < n := by omega
      have hcond : ¬(Int.tmod n i = 0 ∨ Int.tmod n (i + 2) = 0) := by
        push_neg
        constructor
        · intro h0
          exact not_dvd_of_prime n i hn hp (by omega) (by omega)
            (Int.dvd_of_tmod_eq_zero h0)
        · intro h0
          exact not_dvd_of_prime n (i + 2) hn hp (by omega) (by omega)
            (Int.dvd_of_tmod_eq_zero h0)
      rw [if_neg hcond]
      exact ih (n + 1 - (i + 6)).toNat (by omega) (i + 6) rfl (by omega)
    · rw [if_neg hg]

/-- `isPrime` decides primality of the value (negative inputs and `0`, `1`
are composite-classified, matching `n ≤ 1 → false`). -/
theorem isPrime_iff (n : Int) : isPrime n = true ↔ Nat.Prime n.toNat := by
  unfold isPrime
  by_cases h1 : n ≤ 1
  · rw [if_pos h1]
    simp only [Bool.false_eq_true, false_iff]
    intro hp
    have h2 := hp.two_le
    omega
  · rw [if_neg h1]
    obtain ⟨N, rfl⟩ := Int.eq_ofNat_of_zero_le (by omega : (0:Int) ≤ n)
    rw [Int.toNat_ofNat]
    have hN1 : 1 < N := by exact_mod_cast not_le.mp h1
    by_cases h3 : (N : Int) ≤ 3
    · rw [if_pos h3]
      simp only [true_iff]
      have hN3 : N ≤ 3 := by exact_mod_cast h3
      interval_cases N
      · exact Nat.prime_two
      · exact Nat.prime_three
    · rw [if_neg h3]
      have hN3 : 3 < N := by exact_mod_cast not_le.mp h3
      have htm2 : Int.tmod (N : Int) 2 = ((N % 2 : Nat) : Int) := (Int.ofNat_tmod N 2).symm
      have htm3 : Int.tmod (N : Int) 3 = ((N % 3 : Nat) : Int) := (Int.ofNat_tmod N 3).symm
      by_cases h23 : Int.tmod (N : Int) 2 = 0 ∨ Int.tmod (N : Int) 3 = 0
      · rw [if_pos h23]
        simp only [Bool.false_eq_true, false_iff]
        intro hp
        rcases h23 with h | h
        · rw [htm2] at h
          have h2 : N % 2 = 0 := by exact_mod_cast h
          have hdvd : 2 ∣ N := Nat.dvd_of_mod_eq_zero h2
          rcases hp.eq_one_or_self_of_dvd 2 hdvd with hh | hh <;> omega
        · rw [htm3] at h
          have h2 : N % 3 = 0 := by exact_mod_cast h
          have hdvd : 3 ∣ N := Nat.dvd_of_mod_eq_zero h2
          rcases hp.eq_one_or_self_of_dvd 3 hdvd with hh | hh <;> omega
      · rw [if_neg h23]
        push_neg at h23
        have hm2 : N % 2 ≠ 0 := by
          intro h
          apply h23.1
          rw [htm2, h]
          rfl
        have hm3 : N % 3 ≠ 0 := by
          intro h
          apply h23.2
          rw [htm3, h]
          rfl
        have hN5 : 5 ≤ N := by omega
        constructor
        · intro hloop
          by_contra hnp
          set p := N.minFac with hpdef
          have hpp : p.Prime := Nat.minFac_prime (by omega : N ≠ 1)
          have hpd : p ∣ N := Nat.minFac_dvd N
          have hsq : p * p ≤ N := by
            have h := Nat.minFac_sq_le_self (by omega : 0 < N) hnp
            rw [pow_two] at h
            exact h
          have hp2 : p ≠ 2 := by
            rintro h2
            rw [h2] at hpd
            exact hm2 (Nat.mod_eq_zero_of_dvd hpd)
          have hp3 : p ≠ 3 := by
            rintro h3
            rw [h3] at hpd
            exact hm3 (Nat.mod_eq_zero_of_dvd hpd)
          have hp4 : p ≠ 4 := by
            rintro h4
            rw [h4] at hpp
            norm_num at hpp
          have hp5 : 5 ≤ p := by
            have := hpp.two_le
            omega
          have hpm2 : p % 2 = 1 := by
            have hnd : ¬ 2 ∣ p := by
              intro h
              rcases hpp.eq_one_or_self_of_dvd 2 h with hh | hh <;> omega
            rcases Nat.mod_two_eq_zero_or_one p with hh | hh
            · exact absurd (Nat.dvd_of_mod_eq_zero hh) hnd
            · exact hh
          have hpm3 : p % 3 ≠ 0 := by
            intro h
            have hd : 3 ∣ p := Nat.dvd_of_mod_eq_zero h
            rcases hpp.eq_one_or_self_of_dvd 3 hd with hh | hh <;> omega
          have hm6 : p % 6 = 1 ∨ p % 6 = 5 := by omega
          have hfalse : isPrimeLoop (N : Int) 5 = false := by
            rcases hm6 with h6 | h6
            · have hp7 : 7 ≤ p := by omega
              set k := (p - 7) / 6 with hk
              have hpk : p = 7 + 6 * k := by omega
              apply isPrimeLoop_false_of_dvd (N : Int) k 5 (by norm_num)
              · have h52 : (5 + 6 * k) * (5 + 6 * k) ≤ N := by
                  have hle : 5 + 6 * k ≤ p := by omega
                  exact le_trans (Nat.mul_le_mul hle hle) hsq
                exact_mod_cast h52
              · right
                have harr : (5 : Int) + 6 * (k : Int) + 2 = ((p : Nat) : Int) := by
                  rw [hpk]
                  push_cast
                  ring
                rw [harr]
                exact_mod_cast hpd
            · set k := (p - 5) / 6 with hk
              have hpk : p = 5 + 6 * k := by omega
              apply isPrimeLoop_false_of_dvd (N : Int) k 5 (by norm_num)
              · have h52 : (5 + 6 * k) * (5 + 6 * k) ≤ N := by
                  rw [← hpk]
                  exact hsq
                exact_mod_cast h52
              · left
                have harr : (5 : Int) + 6 * (k : Int) = ((p : Nat) : Int) := by
                  rw [hpk]
                  push_cast
                  ring
                rw [harr]
                exact_mod_cast hpd
          rw [hfalse] at hloop
          exact absurd hloop (by simp)
        · intro hp
          exact isPrimeLoop_true_of_prime (N : Int) (by omega) (by rw [Int.toNat_ofNat]; exact hp)
            _ 5 rfl (by norm_num)

/-! ### The RSA round-trip identity -/

/-- Textbook-RSA correctness over the naturals: if `e * d ≡ 1` modulo
`(p-1)(q-1)` for distinct primes `p, q`, then raising to the `e * d`-th
power is the identity modulo `p * q` (via Fermat's little theorem on each
prime factor and the Chinese remainder theorem). -/
theorem rsa_core (p q e d m : ℕ) (hp : p.Prime) (hq : q.Prime) (hpq : p ≠ q)
    (hed : e * d % ((p - 1) * (q - 1)) = 1) (hm : m < p * q) :
    m ^ (e * d) % (p * q) = m := by
  set φ := (p - 1) * (q - 1) with hφ
  have hsplit : e * d = φ * (e * d / φ) + 1 := by
    conv_lhs => rw [← Nat.div_add_mod (e * d) φ]
    rw [hed, Nat.mul_comm]
  set k := e * d / φ
  have key : ∀ r : ℕ, r.Prime → (r - 1) ∣ φ * k → m ^ (e * d) ≡ m [MOD r] := by
    intro r hr hdvd
    haveI := Fact.mk hr
    apply (ZMod.natCast_eq_natCast_iff (m ^ (e * d)) m r).mp
    push_cast
    by_cases hz : (m : ZMod r) = 0
    · simp [hsplit, pow_succ, hz]
    · obtain ⟨t, ht⟩ := hdvd
      rw [hsplit, pow_succ, ht, pow_mul, ZMod.pow_card_sub_one_eq_one hz, one_pow, one_mul]
  have hcp : m ^ (e * d) ≡ m [MOD p] := key p hp ⟨(q - 1) * k, by ring⟩
  have hcq : m ^ (e * d) ≡ m [MOD q] := key q hq ⟨(p - 1) * k, by ring⟩
  have hco : Nat.Coprime p q := (Nat.coprime_primes hp hq).mpr hpq
  have hmul := (Nat.modEq_and_modEq_iff_modEq_mul hco).mp ⟨hcp, hcq⟩
  have heq : m ^ (e * d) % (p * q) = m % (p * q) := hmul
  rw [heq, Nat.mod_eq_of_lt hm]

/-- A successful `isPrime` implies the input is at least 2. -/
theorem two_le_of_isPrime (p : Int) (h : isPrime p = true) : 2 ≤ p := by
  by_contra hlt
  push_neg at hlt
  rw [isPrime, if_pos (by omega : p ≤ 1)] at h
  exact absurd h (by simp)

/-- Encrypting then decrypting a value below the modulus with exponents
produced by `modularInverse` recovers the value. -/
theorem rsa_roundtrip_value (p q d m : Int)
    (hp : Nat.Prime p.toNat) (hq : Nat.Prime q.toNat) (hpq : p ≠ q)
    (hp2 : 2 ≤ p) (hq2 : 2 ≤ q)
    (hinv : modularInverse 65537 ((p - 1) * (q - 1)) = some d) (hd0 : d ≠ 0)
    (hm0 : 0 ≤ m) (hmn : m < p * q) :
    modularExponentiation (modularExponentiation m 65537 (p * q)) d (p * q) = m := by
  have hphipos : (0 : Int) < (p - 1) * (q - 1) := mul_pos (by omega) (by omega)
  obtain ⟨hgcd, hd_nonneg, hd_lt, hd_mod⟩ :=
    modularInverse_some_spec 65537 _ d (by norm_num) hphipos hinv
  have hphi1 : (p - 1) * (q - 1) ≠ 1 := by
    intro h1
    rw [h1] at hd_lt
    omega
  have h1mod : (1 : Int) % ((p - 1) * (q - 1)) = 1 :=
    Int.emod_eq_of_lt (by norm_num) (by omega)
  rw [h1mod] at hd_mod
  have hn_pos : (0 : Int) < p * q := mul_pos (by omega) (by omega)
  rw [modularExponentiation_spec m 65537 _ hm0 (by norm_num) hn_pos]
  rw [modularExponentiation_spec _ d _ (Int.emod_nonneg _ (by omega)) hd_nonneg hn_pos]
  rw [pow_emod_int, ← pow_mul]
  obtain ⟨P, rfl⟩ := Int.eq_ofNat_of_zero_le (by omega : (0:Int) ≤ p)
  obtain ⟨Q, rfl⟩ := Int.eq_ofNat_of_zero_le (by omega : (0:Int) ≤ q)
  obtain ⟨M, rfl⟩ := Int.eq_ofNat_of_zero_le hm0
  obtain ⟨D, rfl⟩ := Int.eq_ofNat_of_zero_le hd_nonneg
  rw [Int.toNat_ofNat] at hp hq
  rw [Int.toNat_ofNat]
  have hP2 : 2 ≤ P := by exact_mod_cast hp2
  have hQ2 : 2 ≤ Q := by exact_mod_cast hq2
  have hPQ : P ≠ Q := fun hh => hpq (by rw [hh])
  have hmn' : M < P * Q := by exact_mod_cast hmn
  have hedmod : 65537 * D % ((P - 1) * (Q - 1)) = 1 := by
    have hcast : ((65537 * D % ((P - 1) * (Q - 1)) : Nat) : Int)
        = 65537 * (D : Int) % (((P : Int) - 1) * ((Q : Int) - 1)) := by
      push_cast [Nat.cast_sub (show 1 ≤ P by omega), Nat.cast_sub (show 1 ≤ Q by omega)]
      ring_nf
    have h2 : ((65537 * D % ((P - 1) * (Q - 1)) : Nat) : Int) = 1 := hcast.trans hd_mod
    exact_mod_cast h2
  have hfin := rsa_core P Q 65537 D M hp hq hPQ hedmod hmn'
  have h655 : (65537 : Int).toNat = 65537 := rfl
  rw [h655]
  exact_mod_cast hfin

/-! ### Shape of `generateRSAKeys` results -/

/-- What a successful `generateRSAKeys` tells us about its result. -/
theorem generateRSAKeys_some_spec (p q : Int) (kp : RSAKeyPair)
    (h : generateRSAKeys p q = some kp) :
    isPrime p = true ∧ isPrime q = true ∧
    kp.p = p ∧ kp.q = q ∧ kp.n = p * q ∧ kp.phi = (p - 1) * (q - 1) ∧
    kp.e = 65537 ∧
    modularInverse 65537 ((p - 1) * (q - 1)) = some kp.d ∧ kp.d ≠ 0 ∧
    gcd 65537 ((p - 1) * (q - 1)) = 1 := by
  by_cases h1 : ¬ isPrime p ∨ ¬ isPrime q
  · rw [generateRSAKeys, if_pos h1] at h
    exact absurd h (by simp)
  · simp only [generateRSAKeys, if_neg h1] at h
    push_neg at h1
    obtain ⟨hp, hq⟩ := h1
    by_cases h2 : gcd 65537 (eulerTotient p q) ≠ 1
    · rw [if_pos h2] at h
      exact absurd h (by simp)
    · rw [if_neg h2] at h
      push_neg at h2
      rcases hmi : modularInverse 65537 (eulerTotient p q) with _ | d
      · simp only [hmi] at h
        exact absurd h (by simp)
      · simp only [hmi] at h
        by_cases h3 : d = 0
        · rw [if_pos h3] at h
          exact absurd h (by simp)
        · rw [if_neg h3] at h
          have hkp := Option.some.inj h
          subst hkp
          refine ⟨by simpa using hp, by simpa using hq, rfl, rfl, rfl, rfl, rfl, ?_, h3, h2⟩
          exact hmi

/-- On success, the returned narration equals the instrumented trace; on
failure, the instrumented trace is nonempty and ends with one of the three
narrated error steps. -/
theorem generateRSAKeys_trace (p q : Int) :
    (∀ kp, generateRSAKeys p q = some kp → kp.steps = generateRSAKeysSteps p q) ∧
    (generateRSAKeys p q = none →
      generateRSAKeysSteps p q ≠ [] ∧
      ((generateRSAKeysSteps p q).getLast? = some errNotPrimeStep ∨
       (generateRSAKeysSteps p q).getLast? = some (errNonCoprimeStep 65537 (eulerTotient p q)) ∨
       (generateRSAKeysSteps p q).getLast? = some (errNoInverseStep 65537 (eulerTotient p q)))) := by
  by_cases h1 : ¬ isPrime p ∨ ¬ isPrime q
  · constructor
    · intro kp h
      rw [generateRSAKeys, if_pos h1] at h
      exact absurd h (by simp)
    · intro _
      rw [generateRSAKeysSteps, if_pos h1]
      exact ⟨by simp, Or.inl rfl⟩
  · by_cases h2 : gcd 65537 (eulerTotient p q) ≠ 1
    · constructor
      · intro kp h
        simp only [generateRSAKeys, if_neg h1, if_pos h2] at h
        exact absurd h (by simp)
      · intro _
        simp only [generateRSAKeysSteps, if_neg h1, if_pos h2]
        refine ⟨by simp, Or.inr (Or.inl ?_)⟩
        exact List.getLast?_concat _
    · rcases hmi : modularInverse 65537 (eulerTotient p q) with _ | d
      · constructor
        · intro kp h
          simp only [generateRSAKeys, if_neg h1, if_neg h2, hmi] at h
          exact absurd h (by simp)
        · intro _
          simp only [generateRSAKeysSteps, if_neg h1, if_neg h2, hmi]
          refine ⟨by simp, Or.inr (Or.inr ?_)⟩
          exact List.getLast?_concat _
      · by_cases h3 : d = 0
        · constructor
          · intro kp h
            simp only [generateRSAKeys, if_neg h1, if_neg h2, hmi, if_pos h3] at h
            exact absurd h (by simp)
          · intro _
            simp only [generateRSAKeysSteps, if_neg h1, if_neg h2, hmi, if_pos h3]
            refine ⟨by simp, Or.inr (Or.inr ?_)⟩
            exact List.getLast?_concat _
        · constructor
          · intro kp h
            simp only [generateRSAKeys, if_neg h1, if_neg h2, hmi, if_neg h3] at h
            have hkp := Option.some.inj h
            subst hkp
            simp only [generateRSAKeysSteps, if_neg h1, if_neg h2, hmi, if_neg h3]
          · intro h
            simp only [generateRSAKeys, if_neg h1, if_neg h2, hmi, if_neg h3] at h
            exact absurd h (by simp)

/-! ### Codec lemmas -/

theorem charCodeAt0_bmp (c : Char) (h : c.toNat < 65536) : charCodeAt0 c = c.toNat := by
  rw [charCodeAt0, if_pos h]

theorem fromCharCode_bmp (c : Char) (h : c.toNat < 65536) :
    fromCharCode ((c.toNat : Int)) = c := by
  rw [fromCharCode]
  have hmod : ((c.toNat : Int)) % 65536 = (c.toNat : Int) :=
    Int.emod_eq_of_lt (by positivity) (by exact_mod_cast h)
  rw [hmod, Int.toNat_ofNat, Char.ofNat_toNat]

theorem rsaEncrypt_ciphertext (msg : List Char) (e n : Int) :
    (rsaEncrypt msg e n).ciphertext =
      (stringToBigIntArray msg).map fun m => encryptCharacter m e n := rfl

theorem rsaDecrypt_decrypted (ct : List Int) (d n : Int) :
    (rsaDecrypt ct d n).decrypted =
      bigIntArrayToString (ct.map fun c => decryptCharacter c d n) := rfl

/-! ### The claims -/

/-- C8: For every integer `n`, `isPrime n` returns `true` exactly when the
value is a prime number (negative inputs, 0 and 1 are rejected by the
`n ≤ 1` test and are not prime). -/
theorem c8_isPrime_correct (n : Int) : isPrime n = true ↔ Nat.Prime n.toNat :=
  isPrime_iff n

/-- C2 (amended): `modularExponentiation` returns 0 whenever the modulus is
1, and for every nonnegative base, nonnegative exponent and positive
modulus it agrees with the naive repeated-multiplication reference
`(base ^ exponent) mod modulus`.  (The original claim, quantified over
negative bases as well, is false: see the counterexample.) -/
theorem c2_modexp_amended :
    (∀ b e : Int, modularExponentiation b e 1 = 0) ∧
    ∀ b e m : Int, 0 ≤ b → 0 ≤ e → 0 < m →
      modularExponentiation b e m = naiveModPow b e.toNat m := by
  constructor
  · intro b e
    rw [modularExponentiation, if_pos rfl]
  · intro b e m hb he hm
    rw [naiveModPow, naivePow_eq_pow]
    exact modularExponentiation_spec b e m hb he hm

/-- C2: witness for the amended statement at `(3, 5, 7)`. -/
theorem c2_modexp_witness :
    modularExponentiation 3 5 7 = naiveModPow 3 ((5 : Int).toNat) 7 :=
  c2_modexp_amended.2 3 5 7 (by norm_num) (by norm_num) (by norm_num)

/-- C2: counterexample to the original claim.  At `base = -1`,
`exponent = 1`, `modulus = 5` the code returns the JavaScript truncated
remainder `-1`, not the residue `4 = (-1)^1 mod 5` of the naive
reference. -/
theorem c2_modexp_counterexample :
    modularExponentiation (-1) 1 5 = -1 ∧
    naiveModPow (-1) ((1 : Int).toNat) 5 = 4 ∧
    modularExponentiation (-1) 1 5 ≠ naiveModPow (-1) ((1 : Int).toNat) 5 := by
  decide

/-- C3 (amended): for `e ≥ 0` and `phi > 1`, `modularInverse e phi`
returns `none` exactly when `gcd(e, phi) ≠ 1`, and otherwise the unique
`d ∈ [0, phi)` with `(e * d) mod phi = 1`.  (The original claim without
these bounds is false at `phi = 1` and at negative `e`: see the
counterexample.) -/
theorem c3_modinv_amended (e phi : Int) (he : 0 ≤ e) (hphi : 1 < phi) :
    (modularInverse e phi = none ↔ Int.gcd e phi ≠ 1) ∧
    ∀ d, modularInverse e phi = some d →
      0 ≤ d ∧ d < phi ∧ e * d % phi = 1 ∧
      ∀ dd, 0 ≤ dd → dd < phi → e * dd % phi = 1 → dd = d := by
  have h1 : (1 : Int) % phi = 1 := Int.emod_eq_of_lt (by norm_num) hphi
  constructor
  · exact modularInverse_none_iff e phi he (by omega)
  · intro d hd
    obtain ⟨hg, h0, hlt, hm⟩ := modularInverse_some_spec e phi d he (by omega) hd
    rw [h1] at hm
    refine ⟨h0, hlt, hm, ?_⟩
    intro dd hdd0 hddlt hddm
    exact modularInverse_unique e phi d dd hg (by omega) h0 hlt
      (by rw [h1]; exact hm) hdd0 hddlt (by rw [h1]; exact hddm)

/-- C3: witness for the amended statement at `(65537, 120)`, whose inverse
is 113. -/
theorem c3_modinv_witness :
    0 ≤ (113 : Int) ∧ (113 : Int) < 120 ∧ (65537 : Int) * 113 % 120 = 1 := by
  have h := (c3_modinv_amended 65537 120 (by norm_num) (by norm_num)).2 113 (by decide)
  exact ⟨h.1, h.2.1, h.2.2.1⟩

/-- C3: counterexample to the original claim.  At `phi = 1` the function
returns `some 0` although no `d` satisfies `(e * d) mod 1 = 1`; at
`e = -1, phi = 5` it returns `none` although `gcd(-1, 5) = 1`. -/
theorem c3_modinv_counterexample :
    (modularInverse 3 1 = some 0 ∧ Int.gcd 3 1 = 1 ∧ ¬ ((3 : Int) * 0 % 1 = 1)) ∧
    (modularInverse (-1) 5 = none ∧ Int.gcd (-1) 5 = 1) := by
  decide

/-- C4: every keypair returned by `generateRSAKeys p q` satisfies
`n = p * q`, `phi = (p-1) * (q-1)`, `e = 65537`, `0 ≤ d < phi` and
`(e * d) mod phi = 1`. -/
theorem c4_keypair_invariants (p q : Int) (kp : RSAKeyPair)
    (h : generateRSAKeys p q = some kp) :
    kp.n = p * q ∧ kp.phi = (p - 1) * (q - 1) ∧ kp.e = 65537 ∧
    0 ≤ kp.d ∧ kp.d < kp.phi ∧ kp.e * kp.d % kp.phi = 1 := by
  obtain ⟨hp, hq, _, _, hkn, hkphi, hke, hinv, hd0, _⟩ :=
    generateRSAKeys_some_spec p q kp h
  have hp2 := two_le_of_isPrime p hp
  have hq2 := two_le_of_isPrime q hq
  have hphipos : (0 : Int) < (p - 1) * (q - 1) := mul_pos (by omega) (by omega)
  obtain ⟨-, hdn, hdl, hdm⟩ :=
    modularInverse_some_spec 65537 _ kp.d (by norm_num) hphipos hinv
  have hphi1 : (p - 1) * (q - 1) ≠ 1 := by
    intro hh
    rw [hh] at hdl
    omega
  have h1m : (1 : Int) % ((p - 1) * (q - 1)) = 1 :=
    Int.emod_eq_of_lt (by norm_num) (by omega)
  rw [h1m] at hdm
  refine ⟨hkn, hkphi, hke, hdn, ?_, ?_⟩
  · rw [hkphi]
    exact hdl
  · rw [hke, hkphi]
    exact hdm

/-- C4: witness at the keypair produced from `p = 13`, `q = 17`. -/
theorem c4_keypair_invariants_witness :
    kp1317.n = 13 * 17 ∧ kp1317.phi = (13 - 1) * (17 - 1) ∧ kp1317.e = 65537 ∧
    0 ≤ kp1317.d ∧ kp1317.d < kp1317.phi ∧ kp1317.e * kp1317.d % kp1317.phi = 1 :=
  c4_keypair_invariants 13 17 kp1317 (by decide)

/-- C5 (code bug): at the prime inputs `p = q = 2` every hypothesis of the
claim holds — both inputs pass `isPrime` and `gcd(65537, (p-1)(q-1)) =
gcd(65537, 1) = 1 — and `modularInverse` succeeds, returning `0`.  Yet
`generateRSAKeys 2 2` returns `null` through its "cannot compute modular
inverse" branch, because the JavaScript test `if (!d)` also treats the
successfully computed inverse `0n` as falsy. -/
theorem c5_defensive_branch_eval :
    isPrime 2 = true ∧ gcd 65537 (eulerTotient 2 2) = 1 ∧
    Int.gcd 65537 ((2 - 1) * ((2 : Int) - 1)) = 1 ∧
    modularInverse 65537 (eulerTotient 2 2) = some 0 ∧
    generateRSAKeys 2 2 = none := by
  decide

/-- C6 (amended): whenever `generateRSAKeys p q` returns a keypair, both
`p` and `q` are prime.  (The distinctness half of the original claim is
false: the derivation never compares `p` with `q`; see the
counterexample.) -/
theorem c6_keypair_primes_amended (p q : Int) (kp : RSAKeyPair)
    (h : generateRSAKeys p q = some kp) :
    Nat.Prime p.toNat ∧ Nat.Prime q.toNat := by
  obtain ⟨hp, hq, _⟩ := generateRSAKeys_some_spec p q kp h
  exact ⟨(isPrime_iff p).mp hp, (isPrime_iff q).mp hq⟩

/-- C6: witness for the amended statement at `p = 5`, `q = 11`. -/
theorem c6_keypair_primes_witness :
    Nat.Prime (5 : Int).toNat ∧ Nat.Prime (11 : Int).toNat :=
  c6_keypair_primes_amended 5 11 kp511 (by decide)

/-- C6: counterexample to the original claim: `generateRSAKeys 3 3`
returns a keypair whose `p` and `q` are both 3, violating `p ≠ q`. -/
theorem c6_distinctness_counterexample :
    ((generateRSAKeys 3 3).map fun kp => (kp.p, kp.q)) = some (3, 3) := by
  decide

/-- C7 (amended): `generateRSAKeys` accumulates narration up to and
including a narrated error step in its local trace on every failure, but
it returns bare `null` on failure, so the caller receives no narration;
only successful results carry the trace. -/
theorem c7_failure_narration_amended (p q : Int) :
    (∀ kp, generateRSAKeys p q = some kp → kp.steps = generateRSAKeysSteps p q) ∧
    (generateRSAKeys p q = none →
      generateRSAKeysSteps p q ≠ [] ∧
      ((generateRSAKeysSteps p q).getLast? = some errNotPrimeStep ∨
       (generateRSAKeysSteps p q).getLast? = some (errNonCoprimeStep 65537 (eulerTotient p q)) ∨
       (generateRSAKeysSteps p q).getLast? = some (errNoInverseStep 65537 (eulerTotient p q)))) :=
  generateRSAKeys_trace p q

/-- C7: witness at the failing input `p = 4`, `q = 5`. -/
theorem c7_failure_narration_witness :
    generateRSAKeysSteps 4 5 ≠ [] ∧
    ((generateRSAKeysSteps 4 5).getLast? = some errNotPrimeStep ∨
     (generateRSAKeysSteps 4 5).getLast? = some (errNonCoprimeStep 65537 (eulerTotient 4 5)) ∨
     (generateRSAKeysSteps 4 5).getLast? = some (errNoInverseStep 65537 (eulerTotient 4 5))) :=
  (c7_failure_narration_amended 4 5).2 (by decide)

/-- C7: counterexample to the original claim: on the failing input
`p = 4, q = 5` the function returns bare `none`, which carries no
narration steps, although the internal trace (with the narrated error
step) is nonempty. -/
theorem c7_failure_narration_counterexample :
    generateRSAKeys 4 5 = none ∧ generateRSAKeysSteps 4 5 ≠ [] := by
  decide

/-- C9: codec round-trip: for every message whose characters have code
points representable as a single UTF-16 code unit (< 2^16),
`bigIntArrayToString (stringToBigIntArray s) = s`. -/
theorem c9_codec_roundtrip (msg : List Char) (h : ∀ c ∈ msg, c.toNat < 65536) :
    bigIntArrayToString (stringToBigIntArray msg) = msg := by
  unfold bigIntArrayToString stringToBigIntArray
  rw [List.map_map]
  refine (List.map_congr_left ?_).trans (List.map_id msg)
  intro c hc
  simp only [Function.comp_apply, id_eq]
  rw [charCodeAt0_bmp c (h c hc)]
  exact fromCharCode_bmp c (h c hc)

/-- C9: witness at the message `"Ok"`. -/
theorem c9_codec_roundtrip_witness :
    bigIntArrayToString (stringToBigIntArray ['O', 'k']) = ['O', 'k'] :=
  c9_codec_roundtrip ['O', 'k'] (by decide)

/-- C10: for every message, modulus `n > 1` and exponent `e ≥ 0`, the
ciphertext of `rsaEncrypt` is exactly the characterwise image of the
message codes under `modularExponentiation` (one element per character,
in message order), and every element lies in `[0, n)`. -/
theorem c10_ciphertext_shape (msg : List Char) (e n : Int) (hn : 1 < n) (he : 0 ≤ e) :
    (rsaEncrypt msg e n).ciphertext =
      (stringToBigIntArray msg).map (fun m => modularExponentiation m e n) ∧
    (rsaEncrypt msg e n).ciphertext.length = msg.length ∧
    ∀ x ∈ (rsaEncrypt msg e n).ciphertext, 0 ≤ x ∧ x < n := by
  refine ⟨rfl, ?_, ?_⟩
  · rw [rsaEncrypt_ciphertext]
    unfold stringToBigIntArray
    rw [List.length_map, List.length_map]
  · intro x hx
    rw [rsaEncrypt_ciphertext] at hx
    unfold stringToBigIntArray at hx
    rw [List.map_map] at hx
    obtain ⟨c, hc, rfl⟩ := List.mem_map.mp hx
    simp only [Function.comp_apply]
    exact modularExponentiation_range _ e n (Int.natCast_nonneg _) he (by omega)

/-- C10: witness at the message `"Hi"` with `e = 3`, `n = 10`. -/
theorem c10_ciphertext_shape_witness :
    (rsaEncrypt ['H', 'i'] 3 10).ciphertext = [8, 5] ∧
    (rsaEncrypt ['H', 'i'] 3 10).ciphertext.length = 2 ∧
    0 ≤ (8 : Int) ∧ (8 : Int) < 10 := by
  have h := c10_ciphertext_shape ['H', 'i'] 3 10 (by norm_num) (by norm_num)
  exact ⟨by decide, by decide, (h.2.2 8 (by decide)).1, (h.2.2 8 (by decide)).2⟩

/-- C1 (amended): full round-trip for distinct primes `p, q` with
`gcd(65537, (p-1)(q-1)) = 1` and the keypair returned by
`generateRSAKeys`, for every message whose characters are single UTF-16
code units (< 2^16) with codes below `n`.  (The original claim without the
single-code-unit restriction is false for astral characters: see the
counterexample.) -/
theorem c1_roundtrip_amended (p q : Int) (kp : RSAKeyPair)
    (hp : Nat.Prime p.toNat) (hq : Nat.Prime q.toNat) (hpq : p ≠ q)
    (_hgcd : Int.gcd 65537 ((p - 1) * (q - 1)) = 1)
    (hkp : generateRSAKeys p q = some kp)
    (msg : List Char)
    (hcodes : ∀ c ∈ msg, (charCodeAt0 c : Int) < kp.n)
    (hbmp : ∀ c ∈ msg, c.toNat < 65536) :
    (rsaDecrypt (rsaEncrypt msg kp.e kp.n).ciphertext kp.d kp.n).decrypted = msg := by
  obtain ⟨hpp, hqq, _, _, hkn, _, hke, hinv, hd0, _⟩ :=
    generateRSAKeys_some_spec p q kp hkp
  have hp2 := two_le_of_isPrime p hpp
  have hq2 := two_le_of_isPrime q hqq
  have key : ∀ c ∈ msg,
      fromCharCode (modularExponentiation
        (modularExponentiation ((charCodeAt0 c : Nat) : Int) kp.e kp.n) kp.d kp.n) = c := by
    intro c hc
    have hb := hbmp c hc
    have hcode := hcodes c hc
    rw [hkn] at hcode
    have h1 := rsa_roundtrip_value p q kp.d ((charCodeAt0 c : Nat) : Int)
      hp hq hpq hp2 hq2 hinv hd0 (Int.natCast_nonneg _) hcode
    rw [hke, hkn, h1, charCodeAt0_bmp c hb]
    exact fromCharCode_bmp c hb
  rw [rsaDecrypt_decrypted, rsaEncrypt_ciphertext]
  unfold bigIntArrayToString stringToBigIntArray encryptCharacter decryptCharacter
  rw [List.map_map, List.map_map, List.map_map]
  refine (List.map_congr_left ?_).trans (List.map_id msg)
  intro c hc
  simp only [Function.comp_apply, id_eq]
  exact key c hc

/-- C1: witness at `p = 11`, `q = 13` and the message `"Hi"`. -/
theorem c1_roundtrip_witness :
    (rsaDecrypt (rsaEncrypt ['H', 'i'] kp1113.e kp1113.n).ciphertext
      kp1113.d kp1113.n).decrypted = ['H', 'i'] :=
  c1_roundtrip_amended 11 13 kp1113 (by decide) (by decide) (by decide)
    (by decide) (by decide) ['H', 'i'] (by decide) (by decide)

/-- C1: counterexample to the original claim: for the distinct primes
`457, 449` (with `gcd(65537, 204288) = 1` and `n = 205193`) and the
one-character message `"💩"` — whose `charCodeAt` code 55357 and code
point 128169 are both below `n` — decrypting the encryption does not
return the message: `charCodeAt` collapses the astral character to its
high surrogate, and `fromCharCode` of that code unit is not the original
character. -/
theorem c1_roundtrip_counterexample :
    Nat.Prime (457 : Int).toNat ∧ Nat.Prime (449 : Int).toNat ∧
    (457 : Int) ≠ 449 ∧ Int.gcd 65537 ((457 - 1) * ((449 : Int) - 1)) = 1 ∧
    generateRSAKeys 457 449 = some kp457449 ∧
    ((charCodeAt0 '💩' : Nat) : Int) < kp457449.n ∧
    (('💩'.toNat : Nat) : Int) < kp457449.n ∧
    (rsaDecrypt (rsaEncrypt ['💩'] kp457449.e kp457449.n).ciphertext
      kp457449.d kp457449.n).decrypted ≠ ['💩'] := by
  refine ⟨?_, ?_, by decide, by decide, by decide, by decide, by decide, by decide⟩
  · show Nat.Prime 457
    norm_num
  · show Nat.Prime 449
    norm_num


end RsaUtils
